import Mathlib

/-!
Verification of the randomness subsystem (`src/random.cpp`).

The C++ code is shallowly embedded: machine integers become `Nat` with
explicit reduction modulo `2^w` where overflow matters, random sources
become explicit streams of draw values (`List Nat` or `Nat → Nat`),
unbounded loops take a fuel argument, and fatal process termination
becomes a distinguished result constructor.
-/

namespace RandomCpp

/-- The value `std::numeric_limits<uint64_t>::max()`. -/
def UINT64_MAX : Nat := 2 ^ 64 - 1

/-- The accepted range computed in `GetRand`:
`nRange = (UINT64_MAX / nMax) * nMax`, the largest multiple of `nMax`
not exceeding the full 64-bit range. -/
def nRange (nMax : Nat) : Nat := (UINT64_MAX / nMax) * nMax

/-- Model of `GetRand(nMax)`: if `nMax == 0` return 0; otherwise repeatedly draw a
64-bit value (`draws` are the successive values filled in by
`GetRandBytes` into `nRand`, reduced mod `2^64`), rejecting any draw
`>= nRange nMax`, and return the first accepted draw mod `nMax`.
Returns `none` when the finite draw list has no accepted value. -/
def GetRand (draws : List Nat) (nMax : Nat) : Option Nat :=
  if nMax = 0 then some 0
  else
    match draws.find? (fun v => decide (v % 2 ^ 64 < nRange nMax)) with
    | some v => some (v % 2 ^ 64 % nMax)
    | none => none

/-- Helper: `GetRand` on bound 0 returns 0. -/
lemma getRand_zero (draws : List Nat) : GetRand draws 0 = some 0 := rfl

/-- Helper: a successful `GetRand` comes from an accepted draw. -/
lemma getRand_accepted {draws : List Nat} {nMax r : Nat} (hpos : 0 < nMax)
    (h : GetRand draws nMax = some r) :
    ∃ v ∈ draws, v % 2 ^ 64 < nRange nMax ∧ r = v % 2 ^ 64 % nMax := by
  unfold GetRand at h
  rw [if_neg (Nat.pos_iff_ne_zero.mp hpos)] at h
  cases hfind : draws.find? (fun v => decide (v % 2 ^ 64 < nRange nMax)) with
  | none => rw [hfind] at h; exact absurd h (by simp)
  | some v =>
    rw [hfind] at h
    refine ⟨v, List.mem_of_find?_eq_some hfind, ?_, ?_⟩
    · have := List.find?_some hfind
      simpa using this
    · exact (Option.some_inj.mp h).symm

/-- Helper: a successful `GetRand` with positive bound lies below the bound. -/
lemma getRand_lt {draws : List Nat} {nMax r : Nat} (hpos : 0 < nMax)
    (h : GetRand draws nMax = some r) : r < nMax := by
  obtain ⟨v, _, _, hr⟩ := getRand_accepted hpos h
  rw [hr]
  exact Nat.mod_lt _ hpos

/-- Counting lemma: among the naturals below `k * m`, exactly `k` of them
leave residue `r` modulo `m` (for `r < m`). -/
lemma card_filter_mod_range_mul (m k r : Nat) (hr : r < m) :
    ((Finset.range (k * m)).filter (fun v => v % m = r)).card = k := by
  have hm : 0 < m := lt_of_le_of_lt (Nat.zero_le r) hr
  have himg : (Finset.range (k * m)).filter (fun v => v % m = r)
      = (Finset.range k).image (fun q => q * m + r) := by
    ext v
    simp only [Finset.mem_filter, Finset.mem_range, Finset.mem_image]
    constructor
    · rintro ⟨hv, hmod⟩
      refine ⟨v / m, ?_, ?_⟩
      · exact (Nat.div_lt_iff_lt_mul hm).mpr hv
      · rw [← hmod, Nat.mul_comm]
        exact Nat.div_add_mod v m
    · rintro ⟨q, hq, rfl⟩
      constructor
      · calc q * m + r < q * m + m := Nat.add_lt_add_left hr _
          _ = (q + 1) * m := by ring
          _ ≤ k * m := Nat.mul_le_mul_right m hq
      · rw [Nat.add_comm, Nat.add_mul_mod_self_right]
        exact Nat.mod_eq_of_lt hr
  rw [himg, Finset.card_image_of_injective _ ?_, Finset.card_range]
  intro a b hab
  simp only at hab
  exact Nat.eq_of_mul_eq_mul_right hm (by omega)

/-- C1: for every `max > 0` and residue `r < max`, the number of accepted
64-bit draws (`v < nRange max`) with `v % max = r` is exactly
`nRange max / max` (which equals `UINT64_MAX / max`), independent of `r`:
the rejection loop gives every residue equally many accepted source
values. -/
theorem getRand_unbiased (nMax r : Nat) (hpos : 0 < nMax) (hr : r < nMax) :
    ((Finset.range (nRange nMax)).filter (fun v => v % nMax = r)).card
      = nRange nMax / nMax
    ∧ nRange nMax / nMax = UINT64_MAX / nMax := by
  have hdiv : nRange nMax / nMax = UINT64_MAX / nMax := by
    unfold nRange
    exact Nat.mul_div_cancel _ hpos
  refine ⟨?_, hdiv⟩
  rw [hdiv]
  unfold nRange
  exact card_filter_mod_range_mul nMax (UINT64_MAX / nMax) r hr

/-- Witness for C1 at `max = 3`, `r = 1`. -/
theorem getRand_unbiased_witness :
    0 < 3 ∧ 1 < 3
    ∧ ((Finset.range (nRange 3)).filter (fun v => v % 3 = 1)).card
        = nRange 3 / 3 :=
  ⟨by decide, by decide, (getRand_unbiased 3 1 (by decide) (by decide)).1⟩

/-- C2: `GetRand` on bound 0 returns 0; for `max > 0` every returned value
lies in `[0, max)` and equals `v % max` for an accepted draw
`v < nRange max`. -/
theorem getRand_range (draws : List Nat) (nMax r : Nat) (hpos : 0 < nMax)
    (h : GetRand draws nMax = some r) :
    GetRand draws 0 = some 0 ∧ r < nMax
    ∧ ∃ v ∈ draws, v % 2 ^ 64 < nRange nMax ∧ r = v % 2 ^ 64 % nMax :=
  ⟨getRand_zero draws, getRand_lt hpos h, getRand_accepted hpos h⟩

/-- Witness for C2 at `draws = [5]`, `max = 3`: the result is `2 < 3`. -/
theorem getRand_range_witness :
    0 < 3 ∧ GetRand [5] 3 = some 2
    ∧ (GetRand [5] 0 = some 0 ∧ 2 < 3
        ∧ ∃ v ∈ [5], v % 2 ^ 64 < nRange 3 ∧ 2 = v % 2 ^ 64 % 3) :=
  ⟨by decide, by decide, getRand_range [5] 3 2 (by decide) (by decide)⟩

/-- Result of a byte-filling operation: either a normal return carrying the
filled buffer, or fatal process termination (`RandFailure`). -/
inductive FillResult where
  | ok (bytes : List Nat) : FillResult
  | fatal : FillResult
deriving DecidableEq, Repr

/-- Model of `GetRandBytes(buf, num)`: calls the underlying generator's byte fill
(`RAND_bytes`), whose return code is `randBytesRet` and whose filled
bytes are `bytes`; aborts via `RandFailure` whenever the return code is
not 1, otherwise returns with the generator's bytes in the buffer. -/
def GetRandBytes (randBytesRet : Int) (bytes : List Nat) : FillResult :=
  if randBytesRet ≠ 1 then FillResult.fatal else FillResult.ok bytes

/-- C8: `GetRandBytes` returns normally exactly when the underlying
generator's fill reports success (return code 1), in which case the buffer
holds exactly the generator's bytes (no fallback value); any other return
code terminates fatally. -/
theorem getRandBytes_fatal_iff (randBytesRet : Int) (bytes : List Nat) :
    (GetRandBytes randBytesRet bytes = FillResult.ok bytes ↔ randBytesRet = 1)
    ∧ (randBytesRet ≠ 1 → GetRandBytes randBytesRet bytes = FillResult.fatal) := by
  unfold GetRandBytes
  constructor
  · constructor
    · intro h
      by_contra hne
      rw [if_pos hne] at h
      exact absurd h (by simp)
    · intro h
      rw [h]
      simp
  · intro h
    rw [if_pos h]

/-- Witness for C8: success at return code 1, fatal at return code 0. -/
theorem getRandBytes_fatal_iff_witness :
    GetRandBytes 1 [7] = FillResult.ok [7]
    ∧ GetRandBytes 0 [7] = FillResult.fatal :=
  ⟨((getRandBytes_fatal_iff 1 [7]).1).mpr rfl,
    (getRandBytes_fatal_iff 0 [7]).2 (by decide)⟩

/-- Result of `GetOSRand`'s read loop: fuel exhaustion (the loop still
running), fatal termination (`RandFailure`), or a normal return with the
number of bytes filled. -/
inductive OSResult where
  | outOfFuel : OSResult
  | fatal : OSResult
  | success (filled : Nat) : OSResult
deriving DecidableEq, Repr

/-- The Unix read loop of `GetOSRand`: `reads i` is the `ssize_t` result of
the `i`-th `read` call, `hv` the running byte count (`have` in the
source). A read result `n <= 0` or overflowing the 32-byte target
(`n + have > 32`) is fatal; otherwise the count advances and the loop
repeats while fewer than 32 bytes are in hand. -/
def GetOSRandLoop (reads : Nat → Int) : Nat → Nat → Nat → OSResult
  | 0, _, _ => OSResult.outOfFuel
  | fuel + 1, idx, hv =>
    let n := reads idx
    if n ≤ 0 ∨ n + (hv : Int) > 32 then OSResult.fatal
    else
      let hv' := hv + n.toNat
      if hv' < 32 then GetOSRandLoop reads fuel (idx + 1) hv'
      else OSResult.success hv'

/-- Model of `GetOSRand(ent32)` on the Unix branch: fatal when opening `/dev/urandom`
fails, otherwise runs the read loop starting from 0 bytes in hand. -/
def GetOSRand (openOk : Bool) (reads : Nat → Int) (fuel : Nat) : OSResult :=
  if openOk then GetOSRandLoop reads fuel 0 0 else OSResult.fatal

/-- Helper: a normal return of the read loop has exactly 32 bytes in hand. -/
lemma getOSRandLoop_success (reads : Nat → Int) :
    ∀ fuel idx hv k, GetOSRandLoop reads fuel idx hv = OSResult.success k →
      k = 32 := by
  intro fuel
  induction fuel with
  | zero => intro idx hv k h; exact absurd h (by simp [GetOSRandLoop])
  | succ fuel ih =>
    intro idx hv k h
    unfold GetOSRandLoop at h
    by_cases hbad : reads idx ≤ 0 ∨ reads idx + (hv : Int) > 32
    · rw [if_pos hbad] at h
      exact absurd h (by simp)
    · rw [if_neg hbad] at h
      simp only at h
      by_cases hlt : hv + (reads idx).toNat < 32
      · rw [if_pos hlt] at h
        exact ih _ _ _ h
      · rw [if_neg hlt] at h
        have hk : hv + (reads idx).toNat = k := by
          have := OSResult.success.inj h
          omega
        push_neg at hbad
        omega

/-- Helper: with at least one byte per successful read and fuel at least
`32 - hv`, the loop cannot run out of fuel. -/
lemma getOSRandLoop_terminates (reads : Nat → Int)
    (hreads : ∀ i, 1 ≤ reads i) :
    ∀ fuel idx hv, 32 ≤ hv + fuel → hv < 32 →
      GetOSRandLoop reads fuel idx hv ≠ OSResult.outOfFuel := by
  intro fuel
  induction fuel with
  | zero => intro idx hv hf hlt; omega
  | succ fuel ih =>
    intro idx hv hf hlt
    unfold GetOSRandLoop
    by_cases hbad : reads idx ≤ 0 ∨ reads idx + (hv : Int) > 32
    · rw [if_pos hbad]; simp
    · rw [if_neg hbad]
      simp only
      by_cases hlt' : hv + (reads idx).toNat < 32
      · rw [if_pos hlt']
        refine ih (idx + 1) _ ?_ hlt'
        have h1 : 1 ≤ reads idx := hreads idx
        have : 1 ≤ (reads idx).toNat := by omega
        omega
      · rw [if_neg hlt']; simp

/-- C4: `GetOSRand` either terminates fatally or returns having filled
exactly 32 bytes (a normal return is never partial); a failed open is
fatal; and assuming every successful read yields at least one byte, the
partial-read loop terminates within 32 iterations of fuel. -/
theorem getOSRand_spec (openOk : Bool) (reads : Nat → Int) (fuel : Nat) :
    (∀ k, GetOSRand openOk reads fuel = OSResult.success k → k = 32)
    ∧ (openOk = false → GetOSRand openOk reads fuel = OSResult.fatal)
    ∧ ((∀ i, 1 ≤ reads i) → 32 ≤ fuel →
        GetOSRand openOk reads fuel ≠ OSResult.outOfFuel) := by
  refine ⟨?_, ?_, ?_⟩
  · intro k h
    cases openOk with
    | false => exact absurd h (by simp [GetOSRand])
    | true => exact getOSRandLoop_success reads fuel 0 0 k h
  · intro h
    rw [h]
    rfl
  · intro hreads hfuel
    cases openOk with
    | false => simp [GetOSRand]
    | true =>
      show GetOSRandLoop reads fuel 0 0 ≠ OSResult.outOfFuel
      exact getOSRandLoop_terminates reads hreads fuel 0 0 (by omega) (by omega)

/-- Witness for C4: a stream of full 32-byte reads terminates with success,
and the success carries exactly 32 bytes. -/
theorem getOSRand_spec_witness :
    GetOSRand true (fun _ => 32) 32 ≠ OSResult.outOfFuel
    ∧ GetOSRand true (fun _ => 32) 32 = OSResult.success 32 :=
  ⟨(getOSRand_spec true (fun _ => 32) 32).2.2 (fun _ => by norm_num)
      (by norm_num),
    by decide⟩

/-- The 10 MB hard cap of `RandAddSeedPerfmon` (`nMaxSize`). -/
def nMaxSize : Nat := 10000000

/-- The buffer resize performed by `RandAddSeedPerfmon` when the registry
query reports more data:
`vData.resize(std::max((vData.size() * 3) / 2, nMaxSize))`. -/
def perfmonGrow (size : Nat) : Nat := max (size * 3 / 2) nMaxSize

/-- Result of a `RegQueryValueExA` call in the perfmon loop. -/
inductive QueryRes where
  | moreData : QueryRes
  | ok : QueryRes
  | otherError : QueryRes
deriving DecidableEq, Repr

/-- The query loop of `RandAddSeedPerfmon`: `resp i` is the result of the
`i`-th registry query against a buffer of the current size. The loop
breaks as soon as the result is anything other than `ERROR_MORE_DATA`
or the buffer has reached `nMaxSize`, and otherwise resizes via
`perfmonGrow` and retries; the returned pair is the final query result
and the buffer size it was obtained with. -/
def PerfmonLoop (resp : Nat → QueryRes) : Nat → Nat → Nat → Option (QueryRes × Nat)
  | 0, _, _ => none
  | fuel + 1, idx, size =>
    let ret := resp idx
    if ret ≠ QueryRes.moreData ∨ nMaxSize ≤ size then some (ret, size)
    else PerfmonLoop resp fuel (idx + 1) (perfmonGrow size)

/-- C5 counterexample evaluation: starting from the initial 250000-byte
buffer, a query reporting `ERROR_MORE_DATA` resizes the buffer straight
to the 10 MB cap — `perfmonGrow 250000 = 10000000`, not the geometric
`250000 * 3 / 2 = 375000` — because the source takes `std::max` of the
two instead of `std::min`, contradicting its own comment
"Grow size of buffer exponentially". -/
theorem perfmonGrow_not_geometric :
    perfmonGrow 250000 = 10000000
    ∧ 250000 * 3 / 2 = 375000
    ∧ perfmonGrow 250000 ≠ 250000 * 3 / 2
    ∧ PerfmonLoop (fun _ => QueryRes.moreData) 3 0 250000
        = some (QueryRes.moreData, 10000000) := by
  refine ⟨by decide, by norm_num, by decide, ?_⟩
  decide

/-- The magic constants of `FastRandomContext`'s seeding: draws equal to 0
or the lane-specific fixed point are rejected. `seedLane` consumes draw
values (reduced mod `2^32`, as `GetRandBytes` fills 4 bytes) until one is
accepted, returning it with the unconsumed rest of the stream; `none`
when the finite stream runs out first. -/
def seedLane (bad : Nat) : List Nat → Option (Nat × List Nat)
  | [] => none
  | d :: rest =>
    let v := d % 2 ^ 32
    if v = 0 ∨ v = bad then seedLane bad rest else some (v, rest)

/-- The constructor `FastRandomContext(fDeterministic)`: in deterministic
mode both lanes `Rz`, `Rw` are set to 11; otherwise lane `Rz` is seeded
rejecting 0 and `0x9068ffff`, then lane `Rw` from the remaining draws
rejecting 0 and `0x464fffff`. Returns the pair `(Rz, Rw)`. -/
def FastRandomContextInit (fDeterministic : Bool) (draws : List Nat) :
    Option (Nat × Nat) :=
  if fDeterministic then some (11, 11)
  else
    match seedLane 0x9068ffff draws with
    | none => none
    | some (rz, rest) =>
      match seedLane 0x464fffff rest with
      | none => none
      | some (rw, _) => some (rz, rw)

/-- Helper: an accepted seed is neither 0 nor the lane's bad constant. -/
lemma seedLane_accepted (bad : Nat) :
    ∀ draws v rest, seedLane bad draws = some (v, rest) →
      v ≠ 0 ∧ v ≠ bad := by
  intro draws
  induction draws with
  | nil => intro v rest h; exact absurd h (by simp [seedLane])
  | cons d rest ih =>
    intro v rest' h
    unfold seedLane at h
    by_cases hbad : d % 2 ^ 32 = 0 ∨ d % 2 ^ 32 = bad
    · rw [if_pos hbad] at h
      exact ih v rest' h
    · rw [if_neg hbad] at h
      simp only [Option.some_inj, Prod.mk.injEq] at h
      push_neg at hbad
      exact ⟨h.1 ▸ hbad.1, h.1 ▸ hbad.2⟩

/-- C6: after the non-deterministic constructor returns, `Rz` is neither 0
nor `0x9068ffff` and `Rw` is neither 0 nor `0x464fffff`. -/
theorem fastRandomContext_seed_nondegenerate (draws : List Nat)
    (rz rw : Nat)
    (h : FastRandomContextInit false draws = some (rz, rw)) :
    rz ≠ 0 ∧ rz ≠ 0x9068ffff ∧ rw ≠ 0 ∧ rw ≠ 0x464fffff := by
  unfold FastRandomContextInit at h
  rw [if_neg (by simp)] at h
  cases h1 : seedLane 0x9068ffff draws with
  | none => rw [h1] at h; exact absurd h (by simp)
  | some p1 =>
    rw [h1] at h
    obtain ⟨v1, rest1⟩ := p1
    dsimp only at h
    cases h2 : seedLane 0x464fffff rest1 with
    | none => rw [h2] at h; exact absurd h (by simp)
    | some p2 =>
      rw [h2] at h
      obtain ⟨v2, rest2⟩ := p2
      dsimp only at h
      simp only [Option.some_inj, Prod.mk.injEq] at h
      obtain ⟨hz, hw⟩ := h
      obtain ⟨hz1, hz2⟩ := seedLane_accepted _ _ _ _ h1
      obtain ⟨hw1, hw2⟩ := seedLane_accepted _ _ _ _ h2
      exact ⟨hz ▸ hz1, hz ▸ hz2, hw ▸ hw1, hw ▸ hw2⟩

/-- Witness for C6 at draws `[5, 7]`: the lanes come out as 5 and 7. -/
theorem fastRandomContext_seed_nondegenerate_witness :
    FastRandomContextInit false [5, 7] = some (5, 7)
    ∧ (5 ≠ 0 ∧ 5 ≠ 0x9068ffff ∧ 7 ≠ 0 ∧ 7 ≠ 0x464fffff) :=
  ⟨by decide, fastRandomContext_seed_nondegenerate [5, 7] 5 7 (by decide)⟩

/-- Modelled from the spec: the per-call output routine of the Fast
Deterministic Generator (`FastRandomContext`'s generation member, declared
in `random.h`, which is not among the sources) — each 32-bit lane is
updated by a multiply-with-carry recurrence and the two lanes are
combined into the output word. -/
def fastRandStep (s : Nat × Nat) : (Nat × Nat) × Nat :=
  let rz := (36969 * (s.1 % 65536) + s.1 / 65536) % 2 ^ 32
  let rw := (18000 * (s.2 % 65536) + s.2 / 65536) % 2 ^ 32
  ((rz, rw), (rw * 65536 + rz) % 2 ^ 32)

/-- The sequence of `n` successive output words produced from state `s`. -/
def fastRandSeq (s : Nat × Nat) : Nat → List Nat
  | 0 => []
  | n + 1 => (fastRandStep s).2 :: fastRandSeq (fastRandStep s).1 n

/-- C7: the deterministic constructor sets both lanes to 11 regardless of
the draw stream, so any two deterministically-constructed instances have
identical state and produce identical output sequences for the same
number of calls. -/
theorem fastRandomContext_deterministic (d1 d2 : List Nat) (n : Nat) :
    FastRandomContextInit true d1 = some (11, 11)
    ∧ FastRandomContextInit true d1 = FastRandomContextInit true d2
    ∧ Option.map (fun s => fastRandSeq s n) (FastRandomContextInit true d1)
      = Option.map (fun s => fastRandSeq s n) (FastRandomContextInit true d2) := by
  refine ⟨rfl, rfl, rfl⟩

/-- A 32-byte fill from a byte source: `GetRandBytes(buf, 32)` and
`GetOSRand(buf)` both place exactly 32 bytes at the start of the buffer;
`f i` is the `i`-th byte delivered by the source (reduced mod 256). -/
def fill32 (f : Nat → Nat) : List Nat := (List.range 32).map (fun i => f i % 256)

/-- Model of `memory_cleanse(buf, n)`: a guaranteed overwrite of the buffer with
zero bytes. -/
def memory_cleanse (buf : List Nat) : List Nat := List.replicate buf.length 0

/-- The streaming `CSHA512` hasher state: `Write` appends to the data
hashed so far and `Finalize` applies the (abstract) SHA-512 compression
`sha512` to everything written. -/
structure CSHA512 where
  acc : List Nat

/-- Model of `CSHA512::Write`. -/
def CSHA512.Write (h : CSHA512) (data : List Nat) : CSHA512 := ⟨h.acc ++ data⟩

/-- Model of `CSHA512::Finalize`, parameterized by the abstract 512-bit hash. -/
def CSHA512.Finalize (sha512 : List Nat → List Nat) (h : CSHA512) : List Nat :=
  sha512 h.acc

/-- The externally observable steps of `GetStrongRandBytes`, in call
order: the timing-entropy feed (`RandAddSeedPerfmon`, which always calls
`RandAddSeed`), the draw from the cryptographic RNG (`GetRandBytes`), and
the draw from the OS source (`GetOSRand`). -/
inductive REvent where
  | timingFeed : REvent
  | rngDraw : REvent
  | osDraw : REvent
deriving DecidableEq, Repr

/-- Model of `GetStrongRandBytes(out, num)`: asserts `num <= 32` (modelled as `none`
on violation); otherwise seeds timing entropy, fills the first 32 bytes of
the 64-byte working buffer from the cryptographic RNG and hashes them,
refills them from the OS source and hashes them, finalizes the hash into
the buffer, copies its first `num` bytes out, and cleanses the buffer.
Returns the output bytes, the final contents of the working buffer, and
the trace of steps in execution order. -/
def GetStrongRandBytes (sha512 : List Nat → List Nat) (rng os : Nat → Nat)
    (bufInit : List Nat) (num : Nat) :
    Option (List Nat × List Nat × List REvent) :=
  if num ≤ 32 then
    let hasher : CSHA512 := ⟨[]⟩
    let buf1 := fill32 rng ++ bufInit.drop 32
    let hasher1 := hasher.Write (buf1.take 32)
    let buf2 := fill32 os ++ buf1.drop 32
    let hasher2 := hasher1.Write (buf2.take 32)
    let digest := hasher2.Finalize sha512
    some (digest.take num, memory_cleanse digest,
      [REvent.timingFeed, REvent.rngDraw, REvent.osDraw])
  else none

/-- Helper: a 32-byte fill has length 32. -/
lemma fill32_length (f : Nat → Nat) : (fill32 f).length = 32 := by
  simp [fill32]

/-- Helper: taking 32 bytes after a 32-byte fill recovers the fill. -/
lemma fill32_take (f : Nat → Nat) (l : List Nat) :
    (fill32 f ++ l).take 32 = fill32 f := by
  rw [← fill32_length f, List.take_left]

/-- Helper: the value of `GetStrongRandBytes` when its precondition
holds. -/
lemma getStrongRandBytes_eq (sha512 : List Nat → List Nat)
    (rng os : Nat → Nat) (bufInit : List Nat) (num : Nat) (h : num ≤ 32) :
    GetStrongRandBytes sha512 rng os bufInit num
      = some ((sha512 (fill32 rng ++ fill32 os)).take num,
          memory_cleanse (sha512 (fill32 rng ++ fill32 os)),
          [REvent.timingFeed, REvent.rngDraw, REvent.osDraw]) := by
  unfold GetStrongRandBytes
  rw [if_pos h]
  simp [CSHA512.Write, CSHA512.Finalize, fill32_take]

/-- C3: for `num1 ≤ 32` the output of `GetStrongRandBytes` is exactly the
first `num1` bytes of the 512-bit hash of the 64-byte concatenation of the
32 bytes from the cryptographic RNG and the 32 bytes from the OS source,
with the timing-entropy feed first in the trace, before both draws; for
`num2 > 32` the assertion fires. -/
theorem getStrongRandBytes_spec (sha512 : List Nat → List Nat)
    (rng os : Nat → Nat) (bufInit : List Nat) (num1 num2 : Nat)
    (h1 : num1 ≤ 32) (h2 : 32 < num2) :
    GetStrongRandBytes sha512 rng os bufInit num1
      = some ((sha512 (fill32 rng ++ fill32 os)).take num1,
          memory_cleanse (sha512 (fill32 rng ++ fill32 os)),
          [REvent.timingFeed, REvent.rngDraw, REvent.osDraw])
    ∧ GetStrongRandBytes sha512 rng os bufInit num2 = none := by
  constructor
  · exact getStrongRandBytes_eq sha512 rng os bufInit num1 h1
  · unfold GetStrongRandBytes
    rw [if_neg (by omega)]

/-- Witness for C3 with constant sources and `num1 = 32`, `num2 = 33`. -/
theorem getStrongRandBytes_spec_witness :
    (32 ≤ 32 ∧ 32 < 33)
    ∧ GetStrongRandBytes (fun _ => List.replicate 64 9) (fun _ => 1)
        (fun _ => 2) [] 32
      = some (((fun (_ : List Nat) => List.replicate 64 9)
            (fill32 (fun _ => 1) ++ fill32 (fun _ => 2))).take 32,
          memory_cleanse ((fun (_ : List Nat) => List.replicate 64 9)
            (fill32 (fun _ => 1) ++ fill32 (fun _ => 2))),
          [REvent.timingFeed, REvent.rngDraw, REvent.osDraw])
    ∧ GetStrongRandBytes (fun _ => List.replicate 64 9) (fun _ => 1)
        (fun _ => 2) [] 33 = none :=
  ⟨⟨by decide, by decide⟩,
    (getStrongRandBytes_spec (fun _ => List.replicate 64 9) (fun _ => 1)
      (fun _ => 2) [] 32 33 (by decide) (by decide)).1,
    (getStrongRandBytes_spec (fun _ => List.replicate 64 9) (fun _ => 1)
      (fun _ => 2) [] 32 33 (by decide) (by decide)).2⟩

/-- Little-endian byte decomposition of a machine integer of `w` bytes. -/
def natToBytesLE : Nat → Nat → List Nat
  | 0, _ => []
  | w + 1, n => n % 256 :: natToBytesLE w (n / 256)

/-- Model of `RandAddSeed()`: reads the performance counter (an `int64_t`, modelled
by its value mod `2^64` as 8 bytes), feeds its raw bytes to the pool via
`RAND_add`, then cleanses the counter buffer. Returns the bytes fed to
the pool and the counter buffer's final contents. -/
def RandAddSeed (counter : Nat) : List Nat × List Nat :=
  let buf := natToBytesLE 8 (counter % 2 ^ 64)
  (buf, memory_cleanse buf)

/-- Helper: the byte decomposition of a `w`-byte integer has `w` bytes. -/
lemma natToBytesLE_length : ∀ w n, (natToBytesLE w n).length = w := by
  intro w
  induction w with
  | zero => intro n; rfl
  | succ w ih => intro n; simp [natToBytesLE, ih]

/-- C9: after `GetStrongRandBytes` returns, its 64-byte working buffer
(which held the draws and then the digest) is all zero, and after
`RandAddSeed` returns, the 8-byte performance-counter buffer is all
zero. -/
theorem sensitive_buffers_scrubbed (sha512 : List Nat → List Nat)
    (rng os : Nat → Nat) (bufInit : List Nat) (num counter : Nat)
    (h : num ≤ 32)
    (hlen : (sha512 (fill32 rng ++ fill32 os)).length = 64) :
    Option.map (fun x => x.2.1)
        (GetStrongRandBytes sha512 rng os bufInit num)
      = some (List.replicate 64 0)
    ∧ (RandAddSeed counter).2 = List.replicate 8 0 := by
  constructor
  · rw [getStrongRandBytes_eq sha512 rng os bufInit num h]
    simp [memory_cleanse, hlen]
  · show memory_cleanse (natToBytesLE 8 (counter % 2 ^ 64)) = _
    rw [memory_cleanse, natToBytesLE_length]

/-- Witness for C9 with a constant 64-byte hash and counter 5. -/
theorem sensitive_buffers_scrubbed_witness :
    Option.map (fun x => x.2.1)
        (GetStrongRandBytes (fun _ => List.replicate 64 9) (fun _ => 1)
          (fun _ => 2) [] 32)
      = some (List.replicate 64 0)
    ∧ (RandAddSeed 5).2 = List.replicate 8 0 :=
  sensitive_buffers_scrubbed (fun _ => List.replicate 64 9) (fun _ => 1)
    (fun _ => 2) [] 32 5 (by decide) (by simp)

/-- The implicit conversion of the `int` argument of `GetRandInt` to the
`uint64_t` parameter of `GetRand`: reduction modulo `2^64`. -/
def intToUInt64 (n : Int) : Nat := (n % (2 ^ 64 : Int)).toNat

/-- The narrowing conversion of `GetRand`'s `uint64_t` result back to the
32-bit `int` return type (two's-complement wrap-around). -/
def toIntNarrow (v : Nat) : Int :=
  if v % 2 ^ 32 < 2 ^ 31 then ((v % 2 ^ 32 : Nat) : Int)
  else ((v % 2 ^ 32 : Nat) : Int) - 2 ^ 32

/-- Model of `GetRandInt(nMax)`, i.e. `return GetRand(nMax);` — the signed argument is
converted to `uint64_t` on the way in and the `uint64_t` result is
narrowed to `int` on the way out. -/
def GetRandInt (draws : List Nat) (nMax : Int) : Option Int :=
  Option.map toIntNarrow (GetRand draws (intToUInt64 nMax))

/-- C10: `GetRandInt 0 = 0`; for `0 < nMax < 2^31` every returned value
lies in `[0, nMax)` (so it fits in `int`); but a negative `nMax` is
converted to the huge unsigned bound `2^64 + nMax ≥ 2^63` rather than
being rejected, and the 64-bit result is narrowed back to `int`. -/
theorem getRandInt_narrowing (draws : List Nat) (nPos nNeg r : Int)
    (hp1 : 0 < nPos) (hp2 : nPos < 2 ^ 31)
    (hn1 : -(2 ^ 31) ≤ nNeg) (hn2 : nNeg < 0)
    (hr : GetRandInt draws nPos = some r) :
    GetRandInt draws 0 = some 0
    ∧ (0 ≤ r ∧ r < nPos)
    ∧ ((intToUInt64 nNeg : Int) = 2 ^ 64 + nNeg
        ∧ 2 ^ 63 ≤ intToUInt64 nNeg) := by
  have hzero : GetRandInt draws 0 = some 0 := rfl
  refine ⟨hzero, ?_, ?_, ?_⟩
  · have hconv : intToUInt64 nPos = nPos.toNat := by
      unfold intToUInt64
      omega
    unfold GetRandInt at hr
    rw [hconv] at hr
    cases hu : GetRand draws nPos.toNat with
    | none => rw [hu] at hr; exact absurd hr (by simp)
    | some u =>
      rw [hu] at hr
      have hult : u < nPos.toNat := getRand_lt (by omega) hu
      have hru : r = toIntNarrow u := by
        simp only [Option.map_some', Option.some_inj] at hr
        exact hr.symm
      have humod : u % 2 ^ 32 = u := Nat.mod_eq_of_lt (by omega)
      have : toIntNarrow u = (u : Int) := by
        unfold toIntNarrow
        rw [humod, if_pos (by omega)]
      rw [hru, this]
      omega
  · unfold intToUInt64
    omega
  · unfold intToUInt64
    omega

/-- Witness for C10 at `draws = [5]`, `nPos = 3`, `nNeg = -1`. -/
theorem getRandInt_narrowing_witness :
    (0 : Int) < 3
    ∧ (GetRandInt [5] 0 = some 0
        ∧ ((0 : Int) ≤ 2 ∧ (2 : Int) < 3)
        ∧ ((intToUInt64 (-1) : Int) = 2 ^ 64 + (-1)
            ∧ 2 ^ 63 ≤ intToUInt64 (-1))) :=
  ⟨by decide,
    getRandInt_narrowing [5] 3 (-1) 2 (by decide) (by decide) (by decide)
      (by decide) (by decide)⟩

end RandomCpp
